import Mathlib

set_option maxRecDepth 8000

/-!
Shallow embedding of the duplicate-file detector in `src/file_deduplicatorV28.py`
(class `FileDeduplicator`) and proofs about it.

Modeling conventions:
* Strings manipulated character-wise (file names) are `List Char`; opaque
  identifiers (paths, cache keys) are `String`.
* `unicodedata.normalize('NFC', s)` is the identity on the ASCII strings
  considered here and is modeled as the identity.
* `str.lower()` is modeled by mapping `Char.toLower`, which agrees with Python
  on ASCII.
* Python `float` arithmetic on similarity values is modeled by exact `ℚ`
  arithmetic (all values involved are small rationals, far from any rounding
  boundary).
* The filesystem is an explicit parameter: `os.path.exists` is a predicate
  `String → Bool`, the MD5 of a file's content is an abstract
  `hashFn : String → Option String` (`none` = the file cannot be read, in which
  case `_calculate_hash` catches the exception and returns `""`), sizes are a
  function `String → Nat`, and `os.walk` is a function from a root to its list
  of `(dirpath, filenames)` results.
* Python dicts are association lists in insertion order with unique keys;
  Python sets are lists used only through membership.
-/

/-- Python `str.lower()`: `Char.toLower` character-wise (ASCII model). -/
def pyToLower (l : List Char) : List Char := l.map Char.toLower

/-- Index of the last occurrence of `c` in `l`; `-1` if absent
(Python `str.rfind`). -/
def lastIdxOf (c : Char) : List Char → Int
  | [] => -1
  | x :: xs =>
    let r := lastIdxOf c xs
    if 0 ≤ r then r + 1 else if x = c then 0 else -1

/-- The stem (`[0]` component) of `os.path.splitext`, following CPython's
`genericpath._splitext` with separator `/` and extension separator `.`:
split at the last dot provided it lies after the last slash and some
character strictly between the last slash and that dot is not itself a dot
(so names consisting only of leading dots keep their "extension"). -/
def pySplitextStem (l : List Char) : List Char :=
  let sepIndex := lastIdxOf '.' l
  let sIndex := lastIdxOf '/' l
  if sIndex < sepIndex then
    if ((List.range l.length).filter fun (i : Nat) =>
          decide (sIndex < (i : Int)) && decide ((i : Int) < sepIndex)).any
        (fun (i : Nat) => l.getD i ' ' != '.') then
      l.take sepIndex.toNat
    else l
  else l

/-- The extension (`[1]` component) of `os.path.splitext`. -/
def pySplitextExt (l : List Char) : List Char :=
  l.drop (pySplitextStem l).length

/-- Python `str.lstrip('.')`. -/
def pyLstripDot (l : List Char) : List Char := l.dropWhile (· == '.')

/-- The normalization applied by `_fuzzy_match` to each argument:
`unicodedata.normalize('NFC', os.path.splitext(s)[0].lower())`
(NFC modeled as the identity). -/
def normName (l : List Char) : List Char := pyToLower (pySplitextStem l)

/-- Inner loop of `_levenshtein_distance`: builds `current_row` past its first
element. `prev` is the suffix of `previous_row` starting at position `j`, and
`cur` is `current_row[j]`. -/
def levRow (c1 : Char) : List Char → List Nat → Nat → List Nat
  | [], _, _ => []
  | c2 :: s2, prev, cur =>
    match prev with
    | [] => []
    | pj :: prest =>
      let insertions := prest.headD 0 + 1
      let deletions := cur + 1
      let substitutions := pj + (if c1 = c2 then 0 else 1)
      let v := min insertions (min deletions substitutions)
      v :: levRow c1 s2 prest v

/-- Outer loop of `_levenshtein_distance`: `previous_row` is replaced by
`current_row = [i+1] ++ levRow ...` for each character of `s1`
(`i` is the 0-based position, so the passed argument is `i+1`). -/
def levRows (s2 : List Char) : List Char → List Nat → Nat → List Nat
  | [], prev, _ => prev
  | c1 :: s1, prev, i => levRows s2 s1 ((i + 1) :: levRow c1 s2 prev (i + 1)) (i + 1)

/-- The dynamic-programming body of `_levenshtein_distance` (after the
length-ordering swap): `previous_row = range(len(s2)+1)`, then one row per
character of `s1`, returning `previous_row[-1]`. -/
def levenshteinCore (s1 s2 : List Char) : Nat :=
  (levRows s2 s1 (List.range (s2.length + 1)) 0).getLastD 0

/-- Source `_levenshtein_distance`: swaps so the first string is the longer one,
then runs the row dynamic program. -/
def levenshtein_distance (s1 s2 : List Char) : Nat :=
  if s1.length < s2.length then levenshteinCore s2 s1 else levenshteinCore s1 s2

/-- Body of `_fuzzy_match` after normalization and the length-ordering
recursion: `max_len = max(len(s1), len(s2))`, `1.0` if `max_len == 0`,
otherwise `1 - distance / max_len`. -/
def fuzzy_core (s1 s2 : List Char) : ℚ :=
  let max_len := max s1.length s2.length
  if max_len = 0 then 1
  else 1 - (levenshtein_distance s1 s2 : ℚ) / (max_len : ℚ)

/-- Termination measure for `_fuzzy_match`'s self-call `_fuzzy_match(s2, s1)`:
that call re-normalizes its (already normalized) arguments, which can strip a
further extension, so plain length sum does not decrease strictly. -/
def fuzzyMeasure (a b : List Char) : Nat :=
  2 * (a.length + b.length) +
    (if (normName a).length < (normName b).length then 1 else 0)

/-- Fuel-indexed unfolding of `_fuzzy_match`. `fuzzyMeasure` strictly
decreases along the self-call (`fuzzyMeasure_decreases`), so any fuel above
the measure computes the fixpoint of the source recursion
(`fuzzy_match_recurrence`). -/
def fuzzyAux : Nat → List Char → List Char → ℚ
  | 0, _, _ => 0
  | fuel + 1, a, b =>
    if (normName a).length < (normName b).length then
      fuzzyAux fuel (normName b) (normName a)
    else
      fuzzy_core (normName a) (normName b)

/-- Source `_fuzzy_match(s1, s2)`: normalize both arguments, swap so the first is at
least as long (re-normalizing on the way, as the source does), then apply
`fuzzy_core`. -/
def fuzzy_match (a b : List Char) : ℚ := fuzzyAux (fuzzyMeasure a b + 1) a b

structure FileInfo where
  size : Nat
  name : List Char
  hash : String
  sorted_size : Nat
deriving DecidableEq, Repr

/-- Python dict lookup on an insertion-ordered association list. -/
def alookup {α : Type} : List (String × α) → String → Option α
  | [], _ => none
  | (k, v) :: rest, key => if k = key then some v else alookup rest key

/-- Python dict assignment `d[key] = v`: replaces in place, else appends. -/
def setKey {α : Type} : List (String × α) → String → α → List (String × α)
  | [], key, v => [(key, v)]
  | (k, w) :: rest, key, v =>
    if k = key then (k, v) :: rest else (k, w) :: setKey rest key v

/-- Python dict deletion `del d[key]`: dict keys are unique, so removing every
entry with the key is the same as removing the entry. -/
def eraseKey {α : Type} (l : List (String × α)) (key : String) :
    List (String × α) :=
  l.filter (fun e => e.1 != key)

/-- Python `bisect.bisect_left(l, x)` on a list sorted ascending: the number of
elements strictly below `x`. -/
def bisect_left (l : List Nat) (x : Nat) : Nat :=
  l.countP (fun s => decide (s < x))

/-- Python `bisect.bisect_right(l, x)` on a list sorted ascending: the number of
elements at most `x`. -/
def bisect_right (l : List Nat) (x : Nat) : Nat :=
  l.countP (fun s => decide (s ≤ x))

/-- Source `_calculate_hash`: memoized content hash. `hashFn p = none` models an
unreadable file: the exception is caught, `""` is returned and nothing is
cached. Returns the value and the updated cache. -/
def calculate_hash (hashFn : String → Option String)
    (cache : List (String × String)) (p : String) :
    String × List (String × String) :=
  match alookup cache p with
  | some h => (h, cache)
  | none =>
    match hashFn p with
    | some h => (h, setKey cache p h)
    | none => ("", cache)

/-- Hash-verification loop of `calculate_similarity`: walks the group,
computing each member's hash through the cache; `base` is `base_hash`
(`none` until the first member). The source's `current_hash is None` test can
never hold because `_calculate_hash` always returns a string (`""` on
failure), so the loop stops early only on a hash mismatch. -/
def groupHashCheck (hashFn : String → Option String) :
    List String → List (String × String) → Option String →
      Bool × List (String × String)
  | [], cache, _ => (true, cache)
  | p :: rest, cache, base =>
    let r := calculate_hash hashFn cache p
    match base with
    | none => groupHashCheck hashFn rest r.2 (some r.1)
    | some b =>
      if r.1 ≠ b then (false, r.2) else groupHashCheck hashFn rest r.2 (some b)

structure SimState where
  groups : List (List String)
  seen : List String
  cache : List (String × String)
deriving Repr

/-- Inner candidate loop of `calculate_similarity` over the size-bucket slice
`sorted_files[j:k]`: a candidate joins the group when it is a different path,
not yet seen, still exists on disk, and its name fuzzy-matches the anchor's
name at or above the threshold; it is then added to `seen`. -/
def addCandidates (threshold : ℚ) (fs : String → Bool) (path : String)
    (name : List Char) :
    List (String × FileInfo) → List String → List String →
      List String × List String
  | [], group, seen => (group, seen)
  | (op, od) :: rest, group, seen =>
    if path ≠ op ∧ op ∉ seen ∧ fs op = true ∧ threshold ≤ fuzzy_match name od.name then
      addCandidates threshold fs path name rest (group ++ [op]) (op :: seen)
    else
      addCandidates threshold fs path name rest group seen

/-- Source `sorted(self.file_index.items(), key=lambda x: x[1]['sorted_size'])`.
Python's sort is stable, and `List.insertionSort` with `≤` on the key is
stable in the same sense. -/
def sortBySortedSize (index : List (String × FileInfo)) :
    List (String × FileInfo) :=
  List.insertionSort (fun a b => a.2.sorted_size ≤ b.2.sorted_size) index

/-- Lookup `self.file_index[path]['sorted_size']`; group members always come from
the index, so the `KeyError` default is never consulted. -/
def lookupSortedSize (index : List (String × FileInfo)) (p : String) : Nat :=
  ((alookup index p).map FileInfo.sorted_size).getD 0

/-- One iteration of the main loop of `calculate_similarity` for the anchor
entry `pd`. `sortedFiles` and `sizes` are the precomputed sorted item list and
size array. `lower = si * 1` and `upper = si / 1` both equal `si` in exact
arithmetic, so the bucket is the run of entries of exactly this size. A group
is emitted only inside the hash-verification branch: the unconditional
emission in the source is commented out (`#groups[f"group_..."] = group`). -/
def anchorStep (hash_check : Bool) (threshold : ℚ)
    (index sortedFiles : List (String × FileInfo)) (sizes : List Nat)
    (fs : String → Bool) (hashFn : String → Option String)
    (st : SimState) (pd : String × FileInfo) : SimState :=
  if pd.1 ∈ st.seen then st
  else
    let si := pd.2.sorted_size
    let j := bisect_left sizes si
    let k := bisect_right sizes si
    let cands := (sortedFiles.drop j).take (k - j)
    let r := addCandidates threshold fs pd.1 pd.2.name cands [pd.1] st.seen
    if 1 < r.1.length then
      if hash_check then
        let group_sizes := (r.1.map (lookupSortedSize index)).dedup
        if group_sizes.length ≠ 1 then { st with seen := r.2 }
        else
          let hc := groupHashCheck hashFn r.1 st.cache none
          if hc.1 then { groups := st.groups ++ [r.1], seen := r.2, cache := hc.2 }
          else { st with seen := r.2, cache := hc.2 }
      else { st with seen := r.2 }
    else { st with seen := r.2 }

/-- The main loop of `calculate_similarity` over the sorted entries. -/
def simLoop (hash_check : Bool) (threshold : ℚ)
    (index sortedFiles : List (String × FileInfo)) (sizes : List Nat)
    (fs : String → Bool) (hashFn : String → Option String) :
    List (String × FileInfo) → SimState → SimState
  | [], st => st
  | e :: rest, st =>
    simLoop hash_check threshold index sortedFiles sizes fs hashFn rest
      (anchorStep hash_check threshold index sortedFiles sizes fs hashFn st e)

/-- Source `calculate_similarity(threshold)`, full-state version: emitted groups,
final `seen` set and final hash cache. -/
def calcSimFull (hash_check : Bool) (threshold : ℚ)
    (index : List (String × FileInfo)) (fs : String → Bool)
    (hashFn : String → Option String) (cache : List (String × String)) :
    SimState :=
  let sortedFiles := sortBySortedSize index
  let sizes := sortedFiles.map (fun e => e.2.sorted_size)
  simLoop hash_check threshold index sortedFiles sizes fs hashFn sortedFiles
    { groups := [], seen := [], cache := cache }

/-- Source `calculate_similarity(threshold)`: the returned `groups` dict, as the list
of groups in emission order (the dict keys `group_1`, `group_2`, … are
positional), together with the mutated hash cache. -/
def calculate_similarity (hash_check : Bool) (threshold : ℚ)
    (index : List (String × FileInfo)) (fs : String → Bool)
    (hashFn : String → Option String) (cache : List (String × String)) :
    List (List String) × List (String × String) :=
  let st := calcSimFull hash_check threshold index fs hashFn cache
  (st.groups, st.cache)

/-- Python `str.isdigit()` (ASCII model): nonempty and all characters are digits. -/
def pyIsDigit (s : String) : Bool :=
  !s.isEmpty && s.data.all Char.isDigit

/-- Digit-string to number, `none` when empty or a non-digit occurs. -/
def parseDigits (l : List Char) : Option Nat :=
  if l = [] then none
  else if l.all Char.isDigit then
    some (l.foldl (fun acc c => acc * 10 + (c.toNat - 48)) 0)
  else none

/-- Python `int(s)`: optional surrounding whitespace and sign, then digits;
`none` models a raised `ValueError`. -/
def pyParseInt (s : String) : Option Int :=
  match s.trim.data with
  | '-' :: rest => (parseDigits rest).map (fun n => -(n : Int))
  | '+' :: rest => (parseDigits rest).map (fun n => (n : Int))
  | t => (parseDigits t).map (fun n => (n : Int))

/-- Keep-set selection of `delete_duplicates` in interactive mode for a group
of length `len`: `q` quits (`none`); `y` keeps the first member; `n` keeps
all; a digit string or anything containing a comma is parsed as 1-based
indices (`max(0, i-1)`, filtered to range), any parse error falling back to
keep-first; anything else keeps the first member. -/
def chooseKeep (choice : String) (len : Nat) : Option (List Nat) :=
  if choice = "q" then none
  else some (
    if choice = "y" then [0]
    else if choice = "n" then List.range len
    else if pyIsDigit choice || choice.data.contains ',' then
      let parsed := (choice.splitOn ",").map pyParseInt
      if parsed.all Option.isSome then
        ((parsed.map (fun o => o.getD 0)).map
          (fun v => (max 0 (v - 1)).toNat)).filter (fun idx => idx < len)
      else [0]
    else [0])

/-- Behavior of the filesystem for one `os.remove` retry loop on a path:
either the first `n` calls raise `PermissionError` and the next succeeds
(`permFails n`, transient failure), or the call raises some other exception
(`raisesOther`). A path absent from the filesystem raises
`FileNotFoundError`, handled like `raisesOther`. -/
inductive RemoveBehavior where
  | permFails (n : Nat)
  | raisesOther
deriving DecidableEq, Repr

/-- The retry loop around `os.remove` (`max_retries = 3`, `time.sleep(0.5)`
before each retry): `n` as in `RemoveBehavior.permFails`. Returns
(success, attempts made, sleeps made); called with fuel 3. -/
def removeRetry (n : Nat) : Nat → Nat → Nat → Bool × Nat × Nat
  | 0, attempts, sleeps => (false, attempts, sleeps)
  | fuel + 1, attempts, sleeps =>
    if n ≤ attempts then (true, attempts + 1, sleeps)
    else if fuel = 0 then (false, attempts + 1, sleeps)
    else removeRetry n fuel (attempts + 1) (sleeps + 1)

structure DelState where
  fileIndex : List (String × FileInfo)
  hashCache : List (String × String)
  fs : List String
  deleted : List String
  persistedHashCache : Option (List (String × String))
  attemptLog : List (String × Nat × Nat)
deriving Repr

/-- Processing of one non-kept `path` (the try-block of `delete_duplicates`):
clear the read-only bit (no modeled effect), optionally ask the Link Service
for a shortcut (modeled as effect-free and non-raising), then `os.remove`
with up to 3 attempts. On success the path is appended to the deleted list,
purged from the index and the hash cache, and the hash cache is saved; any
failure is caught, printed, and leaves index, cache and deleted list
unchanged. `attemptLog` is instrumentation only: it records
(path, attempts, sleeps) for each removal loop and influences nothing. -/
def deletePath (spec : String → RemoveBehavior) (st : DelState) (p : String) :
    DelState :=
  if p ∈ st.fs then
    match spec p with
    | RemoveBehavior.permFails n =>
      let r := removeRetry n 3 0 0
      if r.1 then
        { fileIndex := eraseKey st.fileIndex p
          hashCache := eraseKey st.hashCache p
          fs := st.fs.erase p
          deleted := st.deleted ++ [p]
          persistedHashCache := some (eraseKey st.hashCache p)
          attemptLog := st.attemptLog ++ [(p, r.2.1, r.2.2)] }
      else { st with attemptLog := st.attemptLog ++ [(p, r.2.1, r.2.2)] }
    | RemoveBehavior.raisesOther =>
      { st with attemptLog := st.attemptLog ++ [(p, 1, 0)] }
  else { st with attemptLog := st.attemptLog ++ [(p, 1, 0)] }

/-- Loop `for idx, path in enumerate(group): if idx not in keep_indices: <delete>`. -/
def processGroup (spec : String → RemoveBehavior) (keep : List Nat)
    (group : List String) (st : DelState) : DelState :=
  (group.enum).foldl
    (fun s ip => if ip.1 ∈ keep then s else deletePath spec s ip.2) st

/-- The main loop of `delete_duplicates` over the groups dict: skips groups of
length at most 1, selects the keep-set (interactively from `inputs` when
`confirm`, else the first member), deletes the rest. Returns the final state,
the final `should_stop` flag, and whether the loop returned early (initial
stop flag observed, or `q` entered), in which case the function returns
without running its trailing persistence. -/
def delLoop (spec : String → RemoveBehavior) (confirm : Bool) :
    List (String × List String) → List String → DelState → Bool →
      DelState × Bool × Bool
  | [], _, st, stop => (st, stop, false)
  | (_, group) :: rest, inputs, st, stop =>
    if stop then (st, stop, true)
    else if 1 < group.length then
      if confirm then
        let choice := (inputs.headD "").trim.toLower
        match chooseKeep choice group.length with
        | none => (st, true, true)
        | some keep =>
          delLoop spec confirm rest inputs.tail (processGroup spec keep group st) stop
      else delLoop spec confirm rest inputs (processGroup spec [0] group st) stop
    else delLoop spec confirm rest inputs st stop

structure DelResult where
  deleted : List String
  fileIndex : List (String × FileInfo)
  hashCache : List (String × String)
  fsAfter : List String
  persistedFileCache : Option (List (String × FileInfo))
  persistedHashCache : Option (List (String × String))
  persistedDupCache : Option (List (String × List String))
  newDuplicates : Option (List (List String))
  attemptLog : List (String × Nat × Nat)
  stopFlag : Bool
deriving Repr

/-- Source `delete_duplicates(duplicates, confirm)`. After the loop — unless it
returned early on a quit, in which case nothing further is persisted — the
file index is persisted, the hash cache is saved, and the duplicate groups
are recomputed from the post-deletion index into the local variable
`new_duplicates`; the duplicate cache file is then written from the unchanged
`self.duplicate_index`, not from `new_duplicates`. `threshold` is
`self.similarity_threshold`, `duplicateIndex` is `self.duplicate_index`. -/
def delete_duplicates (hash_check : Bool) (threshold : ℚ)
    (hashFn : String → Option String) (spec : String → RemoveBehavior)
    (duplicates : List (String × List String)) (confirm : Bool)
    (inputs : List String) (fileIndex : List (String × FileInfo))
    (hashCache : List (String × String))
    (duplicateIndex : List (String × List String))
    (fs : List String) : DelResult :=
  let st0 : DelState :=
    { fileIndex := fileIndex, hashCache := hashCache, fs := fs, deleted := []
      persistedHashCache := none, attemptLog := [] }
  let r := delLoop spec confirm duplicates inputs st0 false
  if r.2.2 then
    { deleted := r.1.deleted, fileIndex := r.1.fileIndex,
      hashCache := r.1.hashCache, fsAfter := r.1.fs,
      persistedFileCache := none, persistedHashCache := r.1.persistedHashCache,
      persistedDupCache := none, newDuplicates := none,
      attemptLog := r.1.attemptLog, stopFlag := r.2.1 }
  else
    let cs := calculate_similarity hash_check threshold r.1.fileIndex
      (fun p => decide (p ∈ r.1.fs)) hashFn r.1.hashCache
    { deleted := r.1.deleted, fileIndex := r.1.fileIndex,
      hashCache := cs.2, fsAfter := r.1.fs,
      persistedFileCache := some r.1.fileIndex,
      persistedHashCache := some r.1.hashCache,
      persistedDupCache := some duplicateIndex,
      newDuplicates := some cs.1,
      attemptLog := r.1.attemptLog, stopFlag := r.2.1 }

/-- A stored file-cache entry as read from `file_cache.json`; old-schema
entries may lack `sorted_size`. -/
structure StoredInfo where
  size : Nat
  name : List Char
  hash : String
  sorted_size : Option Nat
deriving DecidableEq, Repr

/-- Source `_load_cache` applied to the file cache: entries missing `sorted_size`
get it defaulted from `size` (schema upgrade on load). -/
def load_cache (data : List (String × StoredInfo)) : List (String × FileInfo) :=
  data.map (fun e =>
    (e.1, { size := e.2.size, name := e.2.name, hash := e.2.hash,
            sorted_size := (e.2.sorted_size).getD e.2.size }))

structure Engine where
  hash_check : Bool
  link_mode : Bool
  file_index : List (String × FileInfo)
  duplicate_index : List (String × List String)
  hash_cache : List (String × String)
  similarity_threshold : ℚ
  should_stop : Bool
deriving Repr

/-- Source `FileDeduplicator.__init__(hash_check, link_mode)`: the file index and
the duplicate index are loaded from their persisted cache files, the default
threshold is 0.9, and `self.hash_cache = {}` — the persisted
`hash_cache.json` (which `_save_hash_cache` keeps writing) is never read
anywhere in the program, so the parameter carrying its contents is unused. -/
def engineInit (hash_check link_mode : Bool)
    (persistedFileIndex : List (String × StoredInfo))
    (persistedDupIndex : List (String × List String))
    (_persistedHashCache : List (String × String)) : Engine :=
  { hash_check := hash_check
    link_mode := link_mode
    file_index := load_cache persistedFileIndex
    duplicate_index := persistedDupIndex
    hash_cache := []
    similarity_threshold := 9/10
    should_stop := false }

/-- Python substring test `kw in s`. -/
def pySubstring (kw s : List Char) : Bool := decide (kw <:+: s)

/-- Python `os.path.join(dirpath, fname)` (POSIX model). -/
def pathJoin (dirpath fname : String) : String := dirpath ++ "/" ++ fname

/-- Python `os.path.basename` (POSIX model): the part after the last slash. -/
def pyBasename (l : List Char) : List Char :=
  (l.reverse.takeWhile (fun c => c != '/')).reverse

/-- Filesystem access used by `scan_files`: `os.walk` of one root (pairs of
dirpath and filenames, in walk order), `os.path.getsize`, and the directory
exclusion test `os.path.commonpath([os.path.abspath(dirpath), ep]) == ep`
(paths are taken to be already absolute, so `os.path.abspath` is dropped). -/
structure ScanWorld where
  walk : String → List (String × List String)
  getsize : String → Nat
  isUnder : String → String → Bool

/-- Body of the scan loop for one file name: the in-index unchanged-size skip
(checked against `self.file_index`, which was cleared to `{}` just before the
walk, so it can never fire), the include-extension filter, the
include-keyword filter, the two exclude filters, then the recording of fresh
metadata (`hash` always `''`, `sorted_size` copied from the size). -/
def scanFileStep (w : ScanWorld) (clearedIndex : List (String × FileInfo))
    (extensions keywords : List String)
    (processed_no_ext normalized_no_kw : List (List Char))
    (no_extension no_keyword : List String) (dirpath : String)
    (new_files : List (String × FileInfo)) (fname : String) :
    List (String × FileInfo) :=
  let full_path := pathJoin dirpath fname
  let skip : Bool :=
    match alookup clearedIndex full_path with
    | some info => decide (w.getsize full_path = info.size)
    | none => false
  if skip then new_files
  else if extensions ≠ [] ∧
      (pyLstripDot (pyToLower (pySplitextExt fname.data))) ∉
        extensions.map (fun e => pyLstripDot (pyToLower e.data)) then
    new_files
  else if keywords ≠ [] ∧ ¬ (keywords.any (fun kw =>
      pySubstring (pyToLower kw.data) (pyToLower (pySplitextStem fname.data)))) then
    new_files
  else if no_extension ≠ [] ∧ processed_no_ext ≠ [] ∧
      (pyLstripDot (pyToLower (pySplitextExt fname.data))) ∈ processed_no_ext then
    new_files
  else if no_keyword ≠ [] ∧ normalized_no_kw ≠ [] ∧
      normalized_no_kw.any (fun kw =>
        pySubstring kw (pyToLower (pySplitextStem fname.data))) then
    new_files
  else
    let file_size := w.getsize full_path
    setKey new_files full_path
      { size := file_size, name := pyToLower (pySplitextStem fname.data),
        hash := "", sorted_size := file_size }

/-- The post-walk exclusion predicate applied (three times) to full paths:
the path's extension is not excluded and the stem of its base name contains
no excluded keyword. -/
def excludeFilterPath (processed_no_ext normalized_no_kw : List (List Char))
    (p : String) : Bool :=
  !(processed_no_ext.contains (pyLstripDot (pyToLower (pySplitextExt p.data)))) &&
  !(normalized_no_kw.any (fun kw =>
      pySubstring kw (pyToLower (pySplitextStem (pyBasename p.data)))))

structure ScanResult where
  file_index : List (String × FileInfo)
  persistedFileCache : List (String × FileInfo)
  new_threshold : Option ℚ
deriving Repr

/-- Source `scan_files(root_dirs, extensions, keywords, exclude_dirs, similarity,
no_extension, no_keyword)`. The method begins with `self.file_index = {}` —
the prior index (`prior_index`, the state at call time) is discarded before
the walk, which is why the unchanged-size skip inside the loop can never
fire. After the walk: sort by `sorted_size`, apply the exclusion filter, and
install the result as the new index; two further identical filter passes
produce `final_cache`, which is what gets persisted to `file_cache.json`. -/
def scan_files (w : ScanWorld) (_prior_index : List (String × FileInfo))
    (root_dirs extensions keywords exclude_dirs : List String)
    (similarity : Option ℚ) (no_extension no_keyword : List String) :
    ScanResult :=
  let cleared : List (String × FileInfo) := []
  let exclude_paths := exclude_dirs
  let processed_no_ext := no_extension.map (fun e => pyLstripDot (pyToLower e.data))
  let normalized_no_kw := no_keyword.map (fun k => pyToLower k.data)
  let dirs := (root_dirs.map w.walk).flatten
  let new_files := dirs.foldl
    (fun acc d =>
      if exclude_paths.any (fun ep => w.isUnder d.1 ep) then acc
      else d.2.foldl
        (fun acc2 fname =>
          scanFileStep w cleared extensions keywords processed_no_ext
            normalized_no_kw no_extension no_keyword d.1 acc2 fname) acc)
    []
  let sorted_files := sortBySortedSize new_files
  let filtered_files := sorted_files.filter
    (fun e => excludeFilterPath processed_no_ext normalized_no_kw e.1)
  let filtered_index := filtered_files.filter
    (fun e => excludeFilterPath processed_no_ext normalized_no_kw e.1)
  let final_cache := filtered_index.filter
    (fun e => excludeFilterPath processed_no_ext normalized_no_kw e.1)
  { file_index := filtered_files
    persistedFileCache := final_cache
    new_threshold := similarity }


/-- The paths non-interactive `delete_duplicates` attempts to delete: every
member except the first of each group with more than one member. -/
def autoDeleteTargets (duplicates : List (String × List String)) : List String :=
  (duplicates.map (fun g => if 1 < g.2.length then g.2.drop 1 else [])).flatten

/-! Concrete scenario data used by claim theorems, counterexamples and
witnesses. -/

/-- Index with two mutually similar 100-byte records and one 50-byte record
(the end-to-end scenario of the spec, with names whose similarity clears the
0.8 threshold). -/
def c1Index : List (String × FileInfo) :=
  [("d/report.txt", { size := 100, name := "report".data, hash := "", sorted_size := 100 }),
   ("d/report2.txt", { size := 100, name := "report2".data, hash := "", sorted_size := 100 }),
   ("d/notes.txt", { size := 50, name := "notes".data, hash := "", sorted_size := 50 })]

/-- Index for the stale-duplicate-cache scenario: two identical records. -/
def c2Index : List (String × FileInfo) :=
  [("a.txt", { size := 100, name := "report".data, hash := "", sorted_size := 100 }),
   ("b.txt", { size := 100, name := "report".data, hash := "", sorted_size := 100 })]

/-- The duplicate groups handed to (and cached by) `delete_duplicates` in the
stale-cache scenario. -/
def c2Dups : List (String × List String) := [("group_1", ["a.txt", "b.txt"])]

/-- Non-interactive deletion of `b.txt` from the group, with every removal
succeeding at once: the state after `delete_duplicates`. -/
def c2Result : DelResult :=
  delete_duplicates false (9/10) (fun _ => some "h")
    (fun _ => RemoveBehavior.permFails 0) c2Dups false [] c2Index
    [("b.txt", "h")] c2Dups ["a.txt", "b.txt"]

/-- Two equal-size records with equal normalized names whose files both exist
but cannot be read (`hashFn` is `none` on every path). -/
def c3Index : List (String × FileInfo) :=
  [("u1.txt", { size := 100, name := "doc".data, hash := "", sorted_size := 100 }),
   ("u2.txt", { size := 100, name := "doc".data, hash := "", sorted_size := 100 })]

/-- Scan world for the reuse scenario: one root `r` holding one 100-byte file. -/
def c4World : ScanWorld :=
  { walk := fun r => if r = "r" then [("r", ["report.txt"])] else []
    getsize := fun _ => 100
    isUnder := fun _ _ => false }

/-- A prior index already holding `r/report.txt` at its unchanged on-disk
size, with a cached content hash. -/
def c4Prior : List (String × FileInfo) :=
  [("r/report.txt", { size := 100, name := "report".data, hash := "abc", sorted_size := 100 })]

/-- Index for the anchor-reabsorption scenario: three equal-size records; the
third one's stored name still contains dots, making the fuzzy matcher
asymmetric on it. -/
def c6Index : List (String × FileInfo) :=
  [("ab.txt", { size := 100, name := "ab".data, hash := "", sorted_size := 100 }),
   ("ab.jpg", { size := 100, name := "ab".data, hash := "", sorted_size := 100 }),
   ("a.b.c.txt", { size := 100, name := "a.b.c".data, hash := "", sorted_size := 100 })]

/-- Deletion scenario for the retry/outcome claim: two groups; removing
`x.txt` always raises `PermissionError`, removing `y.txt` succeeds on the
second attempt. -/
def c8Index : List (String × FileInfo) :=
  [("k.txt", { size := 1, name := "k".data, hash := "", sorted_size := 1 }),
   ("x.txt", { size := 1, name := "k".data, hash := "", sorted_size := 1 }),
   ("k2.txt", { size := 2, name := "j".data, hash := "", sorted_size := 2 }),
   ("y.txt", { size := 2, name := "j".data, hash := "", sorted_size := 2 })]

def c8Spec : String → RemoveBehavior := fun p =>
  if p = "x.txt" then RemoveBehavior.permFails 9 else RemoveBehavior.permFails 1

def c8Dups : List (String × List String) :=
  [("g1", ["k.txt", "x.txt"]), ("g2", ["k2.txt", "y.txt"])]

def c8Result : DelResult :=
  delete_duplicates false (9/10) (fun _ => some "h") c8Spec c8Dups false []
    c8Index [] [] ["k.txt", "x.txt", "k2.txt", "y.txt"]

/-- Index for the vanished-anchor scenario: `gone.txt` is recorded in the
index and the hash cache but no longer exists on disk; `here.txt` exists. -/
def c10Index : List (String × FileInfo) :=
  [("gone.txt", { size := 50, name := "notes".data, hash := "", sorted_size := 50 }),
   ("here.txt", { size := 50, name := "notes".data, hash := "", sorted_size := 50 })]

def c10fs : String → Bool := fun p => p = "here.txt"

def c10hash : String → Option String := fun p =>
  if p = "here.txt" then some "k" else none

def c10cache : List (String × String) := [("gone.txt", "k")]

/-- Invariant carried through the deletion loop (`targets` are the paths the
loop may delete, `fi0` the index at entry): every logged removal loop made at
most 3 attempts with one sleep between consecutive attempts; every deleted
path is purged from the index and the hash cache and was a legitimate target;
every other path's index entry is untouched. -/
def DelInv (targets : List String) (fi0 : List (String × FileInfo))
    (st : DelState) : Prop :=
  (∀ en ∈ st.attemptLog, en.2.1 ≤ 3 ∧ en.2.2 = en.2.1 - 1) ∧
  (∀ p, p ∈ st.deleted →
    alookup st.fileIndex p = none ∧ alookup st.hashCache p = none ∧
    p ∈ targets) ∧
  (∀ p, p ∉ st.deleted → alookup st.fileIndex p = alookup fi0 p)

/-! Theorems: helper lemmas first, then one theorem per claim, with
witnesses and counterexamples. -/

theorem toNat_ofNat_valid (n : Nat) (h : n.isValidChar) :
    (Char.ofNat n).toNat = n := by
  simp only [Char.ofNat, dif_pos h, Char.ofNatAux, Char.toNat, UInt32.toNat]
  simp

theorem toLower_eq_iff (d : Char) (hd : d.toNat < 65) (x : Char) :
    Char.toLower x = d ↔ x = d := by
  by_cases h : x.toNat ≥ 65 ∧ x.toNat ≤ 90
  · simp only [Char.toLower, if_pos h]
    constructor
    · intro he
      exfalso
      have h2 : (Char.ofNat (x.toNat + 32)).toNat = d.toNat := by rw [he]
      have hv : (x.toNat + 32).isValidChar := by left; omega
      rw [toNat_ofNat_valid _ hv] at h2
      omega
    · intro he
      exfalso
      have : x.toNat = d.toNat := by rw [he]
      omega
  · simp only [Char.toLower, if_neg h]

theorem toLower_fix (d : Char) (hd : d.toNat < 65) : Char.toLower d = d := by
  have h : ¬ (d.toNat ≥ 65 ∧ d.toNat ≤ 90) := by omega
  simp only [Char.toLower, if_neg h]

theorem lastIdxOf_map_toLower (c : Char) (hc : c.toNat < 65) (l : List Char) :
    lastIdxOf c (pyToLower l) = lastIdxOf c l := by
  induction l with
  | nil => rfl
  | cons x xs ih =>
    simp only [pyToLower, List.map_cons, lastIdxOf] at *
    rw [ih]
    by_cases h : 0 ≤ lastIdxOf c xs
    · simp [h]
    · simp only [if_neg h]
      by_cases hx : x = c
      · rw [hx, toLower_fix c hc]
      · have hl : ¬ Char.toLower x = c := fun hl => hx ((toLower_eq_iff c hc x).mp hl)
        simp [hx, hl]

theorem toLower_bne_dot (y : Char) : (Char.toLower y != '.') = (y != '.') := by
  by_cases h : y = '.'
  · subst h; decide
  · have hl : ¬ Char.toLower y = '.' :=
      fun hl => h ((toLower_eq_iff '.' (by decide) y).mp hl)
    simp [bne, h, hl]

theorem getD_map_toLower (l : List Char) (i : Nat) :
    (pyToLower l).getD i ' ' = Char.toLower (l.getD i ' ') := by
  induction l generalizing i with
  | nil => simp [pyToLower]
  | cons x xs ih =>
    cases i with
    | zero => simp [pyToLower]
    | succ j =>
      simpa [pyToLower, List.getD_cons_succ] using ih j

theorem stem_map_toLower (l : List Char) :
    pySplitextStem (pyToLower l) = pyToLower (pySplitextStem l) := by
  have hlen : (pyToLower l).length = l.length := by simp [pyToLower]
  have hdot : lastIdxOf '.' (pyToLower l) = lastIdxOf '.' l :=
    lastIdxOf_map_toLower '.' (by decide) l
  have hslash : lastIdxOf '/' (pyToLower l) = lastIdxOf '/' l :=
    lastIdxOf_map_toLower '/' (by decide) l
  have hany : (fun (i : Nat) => (pyToLower l).getD i ' ' != '.') =
      (fun (i : Nat) => l.getD i ' ' != '.') := by
    funext i
    rw [getD_map_toLower, toLower_bne_dot]
  unfold pySplitextStem
  rw [hlen, hdot, hslash, hany]
  by_cases h1 : lastIdxOf '/' l < lastIdxOf '.' l
  · simp only [if_pos h1]
    by_cases h2 :
        ((List.range l.length).filter fun (i : Nat) =>
            decide (lastIdxOf '/' l < (i : Int)) &&
              decide ((i : Int) < lastIdxOf '.' l)).any
          (fun (i : Nat) => l.getD i ' ' != '.') = true
    · simp only [if_pos h2, pyToLower, List.map_take]
    · simp only [if_neg h2]
  · simp only [if_neg h1]

theorem lastIdxOf_ge_neg_one (c : Char) (l : List Char) :
    -1 ≤ lastIdxOf c l := by
  induction l with
  | nil => simp [lastIdxOf]
  | cons x xs ih =>
    simp only [lastIdxOf]
    by_cases h : 0 ≤ lastIdxOf c xs
    · simp only [if_pos h]; omega
    · simp only [if_neg h]
      by_cases hx : x = c <;> simp [hx]

theorem lastIdxOf_lt_length (c : Char) (l : List Char) :
    lastIdxOf c l < l.length := by
  induction l with
  | nil => simp [lastIdxOf]
  | cons x xs ih =>
    simp only [lastIdxOf, List.length_cons]
    by_cases h : 0 ≤ lastIdxOf c xs
    · simp only [if_pos h]; omega
    · simp only [if_neg h]
      by_cases hx : x = c
      · simp [hx]
      · simp [hx]
        omega

theorem stem_eq_or_lt (l : List Char) :
    pySplitextStem l = l ∨ (pySplitextStem l).length < l.length := by
  simp only [pySplitextStem]
  split_ifs with h1 h2
  · right
    have hge : (0 : Int) ≤ lastIdxOf '.' l := by
      have := lastIdxOf_ge_neg_one '/' l
      omega
    have hlt := lastIdxOf_lt_length '.' l
    rw [List.length_take]
    omega
  · left; rfl
  · left; rfl

theorem normName_len_le (l : List Char) : (normName l).length ≤ l.length := by
  unfold normName pyToLower
  rw [List.length_map]
  rcases stem_eq_or_lt l with h | h
  · rw [h]
  · omega

theorem normName_idem_len (l : List Char)
    (h : (normName l).length = l.length) :
    (normName (normName l)).length = (normName l).length := by
  have hstemlen : (pySplitextStem l).length = l.length := by
    have : (normName l).length = (pySplitextStem l).length := by
      unfold normName pyToLower; rw [List.length_map]
    omega
  have hstem : pySplitextStem l = l := by
    rcases stem_eq_or_lt l with h2 | h2
    · exact h2
    · omega
  have hnorm : normName l = pyToLower l := by unfold normName; rw [hstem]
  rw [hnorm]
  unfold normName
  rw [stem_map_toLower l, hstem]
  simp [pyToLower]

theorem fuzzyMeasure_decreases (a b : List Char)
    (h : (normName a).length < (normName b).length) :
    fuzzyMeasure (normName b) (normName a) < fuzzyMeasure a b := by
  have hna := normName_len_le a
  have hnb := normName_len_le b
  unfold fuzzyMeasure
  rw [if_pos h]
  by_cases hsum : (normName a).length + (normName b).length < a.length + b.length
  · have hle : (if (normName (normName b)).length < (normName (normName a)).length
        then 1 else 0) ≤ 1 := by
      split_ifs <;> omega
    omega
  · have ha : (normName a).length = a.length := by omega
    have hb : (normName b).length = b.length := by omega
    have ha2 := normName_idem_len a ha
    have hb2 := normName_idem_len b hb
    have hno : ¬ (normName (normName b)).length < (normName (normName a)).length := by
      rw [ha2, hb2]; omega
    rw [if_neg hno]
    omega

theorem fuzzyAux_fuel (m : Nat) : ∀ (f1 f2 : Nat) (a b : List Char),
    fuzzyMeasure a b ≤ m → fuzzyMeasure a b < f1 → fuzzyMeasure a b < f2 →
    fuzzyAux f1 a b = fuzzyAux f2 a b := by
  induction m with
  | zero =>
    intro f1 f2 a b hm h1 h2
    obtain ⟨k1, rfl⟩ : ∃ k, f1 = k + 1 := ⟨f1 - 1, by omega⟩
    obtain ⟨k2, rfl⟩ : ∃ k, f2 = k + 1 := ⟨f2 - 1, by omega⟩
    simp only [fuzzyAux]
    split_ifs with h
    · exfalso
      have := fuzzyMeasure_decreases a b h
      omega
    · rfl
  | succ n ih =>
    intro f1 f2 a b hm h1 h2
    obtain ⟨k1, rfl⟩ : ∃ k, f1 = k + 1 := ⟨f1 - 1, by omega⟩
    obtain ⟨k2, rfl⟩ : ∃ k, f2 = k + 1 := ⟨f2 - 1, by omega⟩
    simp only [fuzzyAux]
    split_ifs with h
    · have hd := fuzzyMeasure_decreases a b h
      exact ih k1 k2 _ _ (by omega) (by omega) (by omega)
    · rfl

/-- The fuel-based `fuzzy_match` satisfies exactly the source recursion of
`_fuzzy_match`: normalize both arguments; if the first normalized form is
shorter, recurse with the arguments swapped; otherwise apply the ratio body. -/
theorem fuzzy_match_recurrence (a b : List Char) :
    fuzzy_match a b =
      if (normName a).length < (normName b).length then
        fuzzy_match (normName b) (normName a)
      else fuzzy_core (normName a) (normName b) := by
  have h1 : fuzzy_match a b = fuzzyAux (fuzzyMeasure a b + 1) a b := rfl
  rw [h1]
  simp only [fuzzyAux]
  split_ifs with h
  · have hd := fuzzyMeasure_decreases a b h
    show fuzzyAux (fuzzyMeasure a b) (normName b) (normName a) =
      fuzzyAux (fuzzyMeasure (normName b) (normName a) + 1) (normName b) (normName a)
    exact fuzzyAux_fuel (fuzzyMeasure (normName b) (normName a)) _ _ _ _
      le_rfl (by omega) (by omega)
  · rfl

/-! Association-list lemmas. -/

theorem alookup_eq_none {α : Type} :
    ∀ (l : List (String × α)) (p : String),
    alookup l p = none ↔ p ∉ l.map Prod.fst := by
  intro l p
  induction l with
  | nil => simp [alookup]
  | cons a rest ih =>
    simp only [alookup, List.map_cons, List.mem_cons]
    by_cases h : a.1 = p
    · simp [h]
    · rw [if_neg h, ih]
      constructor
      · intro hn hc
        rcases hc with hc | hc
        · exact h hc.symm
        · exact hn hc
      · exact fun hn hc => hn (Or.inr hc)

theorem alookup_mem {α : Type} :
    ∀ (l : List (String × α)) (p : String) (v : α),
    alookup l p = some v → (p, v) ∈ l := by
  intro l p v
  induction l with
  | nil => intro h; simp [alookup] at h
  | cons a rest ih =>
    intro h
    simp only [alookup] at h
    by_cases ha : a.1 = p
    · rw [if_pos ha] at h
      cases a with
      | mk k w =>
        simp only [Option.some.injEq] at h
        simp only [] at ha
        rw [← ha, ← h]
        exact List.mem_cons_self _ _
    · rw [if_neg ha] at h
      exact List.mem_cons_of_mem _ (ih h)

theorem alookup_setKey_ne {α : Type} (k : String) (v : α) (q : String)
    (hq : q ≠ k) :
    ∀ (l : List (String × α)), alookup (setKey l k v) q = alookup l q := by
  intro l
  induction l with
  | nil =>
    simp only [setKey, alookup]
    rw [if_neg (fun h => hq h.symm)]
  | cons a rest ih =>
    simp only [setKey]
    by_cases ha : a.1 = k
    · rw [if_pos ha]
      simp only [alookup]
      rw [if_neg (by rw [ha]; exact fun h => hq h.symm)]
      rw [if_neg (by rw [ha]; exact fun h => hq h.symm)]
    · rw [if_neg ha]
      simp only [alookup]
      by_cases ha2 : a.1 = q
      · rw [if_pos ha2, if_pos ha2]
      · rw [if_neg ha2, if_neg ha2, ih]

theorem alookup_eraseKey_self {α : Type} (k : String) :
    ∀ (l : List (String × α)), alookup (eraseKey l k) k = none := by
  intro l
  simp only [eraseKey]
  induction l with
  | nil => rfl
  | cons a rest ih =>
    rw [List.filter_cons]
    by_cases ha : a.1 = k
    · have hb : (a.1 != k) = false := by simp [ha]
      rw [hb, if_neg (by decide)]
      exact ih
    · have hb : (a.1 != k) = true := bne_iff_ne.mpr ha
      rw [hb, if_pos rfl]
      simp only [alookup]
      rw [if_neg ha]
      exact ih

theorem alookup_eraseKey_ne {α : Type} (k q : String) (hq : q ≠ k) :
    ∀ (l : List (String × α)), alookup (eraseKey l k) q = alookup l q := by
  intro l
  simp only [eraseKey]
  induction l with
  | nil => rfl
  | cons a rest ih =>
    rw [List.filter_cons]
    by_cases ha : a.1 = k
    · have hb : (a.1 != k) = false := by simp [ha]
      rw [hb, if_neg (by decide), ih]
      simp only [alookup]
      rw [if_neg (by rw [ha]; exact fun h => hq h.symm)]
    · have hb : (a.1 != k) = true := bne_iff_ne.mpr ha
      rw [hb, if_pos rfl]
      simp only [alookup]
      by_cases ha2 : a.1 = q
      · rw [if_pos ha2, if_pos ha2]
      · rw [if_neg ha2, if_neg ha2, ih]

theorem alookup_eraseKey_none {α : Type} (k q : String)
    (l : List (String × α)) (h : alookup l q = none) :
    alookup (eraseKey l k) q = none := by
  by_cases hq : q = k
  · rw [hq]; exact alookup_eraseKey_self k l
  · rw [alookup_eraseKey_ne k q hq]; exact h

/-! Lemmas supporting claim C1. -/

theorem anchorStep_no_hash_groups (threshold : ℚ)
    (index sortedFiles : List (String × FileInfo)) (sizes : List Nat)
    (fs : String → Bool) (hashFn : String → Option String)
    (st : SimState) (pd : String × FileInfo) :
    (anchorStep false threshold index sortedFiles sizes fs hashFn st pd).groups
      = st.groups := by
  simp only [anchorStep]
  split
  · rfl
  · split <;> rfl

theorem simLoop_no_hash_groups (threshold : ℚ)
    (index sortedFiles : List (String × FileInfo)) (sizes : List Nat)
    (fs : String → Bool) (hashFn : String → Option String) :
    ∀ (rem : List (String × FileInfo)) (st : SimState),
    (simLoop false threshold index sortedFiles sizes fs hashFn rem st).groups
      = st.groups := by
  intro rem
  induction rem with
  | nil => intro st; rfl
  | cons e rest ih =>
    intro st
    simp only [simLoop]
    rw [ih]
    exact anchorStep_no_hash_groups threshold index sortedFiles sizes fs hashFn st e

/-- Claim C1 (code bug): with hash verification disabled,
`calculate_similarity` emits no group at all, for every index and threshold —
the non-verified emission statement is commented out in the source
(`#groups[f"group_..."] = group`). In particular the spec's end-to-end
scenario fails: `c1Index` holds two equal-size records whose names match at
threshold 0.8 (similarity 6/7), yet the returned group dict is empty instead
of containing that pair. -/
theorem c1_no_groups_without_hash_check (threshold : ℚ)
    (index : List (String × FileInfo)) (fs : String → Bool)
    (hashFn : String → Option String) (cache : List (String × String)) :
    (calculate_similarity false threshold index fs hashFn cache).1 = [] ∧
    (4/5 : ℚ) ≤ fuzzy_match "report".data "report2".data ∧
    (calculate_similarity false (4/5) c1Index (fun _ => true)
        (fun _ => some "h") []).1 = [] := by
  refine ⟨?_, by with_unfolding_all decide, by with_unfolding_all decide⟩
  show (calcSimFull false threshold index fs hashFn cache).groups = []
  exact simLoop_no_hash_groups threshold index _ _ fs hashFn _ _

/-- Claim C9 (code bug): the fuzzy matcher is not symmetric. The
length-ordering self-call `_fuzzy_match(s2, s1)` re-applies extension
stripping to already-stripped names, so
`similarity("ax.y.z", "axb") = 1/2` while `similarity("axb", "ax.y.z") = 2/3`.
(Self-similarity at this input is still 1, the true half of the claim.) -/
theorem c9_fuzzy_match_asymmetric :
    fuzzy_match "ax.y.z".data "axb".data = 1/2 ∧
    fuzzy_match "axb".data "ax.y.z".data = 2/3 ∧
    fuzzy_match "ax.y.z".data "axb".data ≠ fuzzy_match "axb".data "ax.y.z".data ∧
    fuzzy_match "ax.y.z".data "ax.y.z".data = 1 := by
  refine ⟨?_, ?_, ?_, ?_⟩ <;> with_unfolding_all decide

/-- Claim C3 (code bug): with hash verification enabled, a group both of
whose members exist but are unreadable IS emitted as a hash-confirmed
duplicate group: `_calculate_hash` returns `""` (never `None`) on failure,
the caller's `is None` check can never fire, and the two `""` failure values
match each other. -/
theorem c3_unreadable_pair_confirmed :
    (calculate_similarity true (9/10) c3Index (fun _ => true)
        (fun _ => none) []).1 = [["u1.txt", "u2.txt"]] := by
  with_unfolding_all decide

/-- Claim C2 (code bug): after a completed `delete_duplicates` call the
persisted duplicate cache is the untouched pre-deletion
`self.duplicate_index`, still naming the deleted path `b.txt`, while the
groups actually recomputed from the post-deletion index (the local
`new_duplicates`, which the source computes and then ignores) are empty. -/
theorem c2_stale_duplicate_cache_persisted :
    "b.txt" ∈ c2Result.deleted ∧
    alookup c2Result.fileIndex "b.txt" = none ∧
    c2Result.persistedDupCache = some [("group_1", ["a.txt", "b.txt"])] ∧
    "b.txt" ∈ (((c2Result.persistedDupCache).getD []).map Prod.snd).flatten ∧
    c2Result.newDuplicates = some [] := by
  refine ⟨?_, ?_, ?_, ?_, ?_⟩ <;> with_unfolding_all decide

/-- Claim C5 (code bug): `__init__` sets `self.hash_cache = {}` regardless of
what `hash_cache.json` holds — the file that `_save_hash_cache` keeps writing
is never read anywhere in the program — so a hash persisted by an earlier run
is recomputed, not reused: hashing `p.txt` through the fresh engine's cache
invokes the hash function even though the persisted cache held `"old"`. -/
theorem c5_hash_cache_not_loaded (hc lm : Bool)
    (pfi : List (String × StoredInfo)) (pdi : List (String × List String))
    (phc : List (String × String)) :
    (engineInit hc lm pfi pdi phc).hash_cache = [] ∧
    calculate_hash (fun _ => some "fresh")
        (engineInit hc lm pfi pdi [("p.txt", "old")]).hash_cache "p.txt"
      = ("fresh", [("p.txt", "fresh")]) := ⟨rfl, rfl⟩

/-- Claim C4 counterexample: scanning with a prior index that already holds
`r/report.txt` at its unchanged on-disk size (100 bytes) does not reuse the
existing record: the cached content hash `"abc"` is lost and the record is
freshly recomputed with an empty hash field. -/
theorem c4_cex_prior_record_not_reused :
    alookup (scan_files c4World c4Prior ["r"] [] [] [] none [] []).file_index
        "r/report.txt"
      = some { size := 100, name := "report".data, hash := "", sorted_size := 100 } ∧
    alookup c4Prior "r/report.txt"
      = some { size := 100, name := "report".data, hash := "abc", sorted_size := 100 } ∧
    alookup (scan_files c4World c4Prior ["r"] [] [] [] none [] []).file_index
        "r/report.txt" ≠ alookup c4Prior "r/report.txt" := by
  refine ⟨?_, ?_, ?_⟩ <;> with_unfolding_all decide

/-! Lemmas supporting the amended claim C4. -/

theorem foldl_preserve {β γ : Type} (P : β → Prop) (f : β → γ → β)
    (hf : ∀ b x, P b → P (f b x)) :
    ∀ (l : List γ) (b : β), P b → P (l.foldl f b) := by
  intro l
  induction l with
  | nil => intro b hb; exact hb
  | cons x xs ih => intro b hb; exact ih (f b x) (hf b x hb)

theorem setKey_forall {α : Type} (P : String × α → Prop) (k : String) (v : α)
    (hv : P (k, v)) :
    ∀ (l : List (String × α)), (∀ e ∈ l, P e) → ∀ e ∈ setKey l k v, P e := by
  intro l
  induction l with
  | nil =>
    intro _ e he
    simp only [setKey, List.mem_singleton] at he
    rw [he]; exact hv
  | cons a rest ih =>
    intro hl e he
    simp only [setKey] at he
    by_cases ha : a.1 = k
    · rw [if_pos ha] at he
      rcases List.mem_cons.mp he with h | h
      · rw [h, ha]; exact hv
      · exact hl e (List.mem_cons_of_mem _ h)
    · rw [if_neg ha] at he
      rcases List.mem_cons.mp he with h | h
      · rw [h]; exact hl a (List.mem_cons_self _ _)
      · exact ih (fun x hx => hl x (List.mem_cons_of_mem _ hx)) e h

theorem scanFileStep_hash_empty (w : ScanWorld)
    (ci : List (String × FileInfo)) (exts kws : List String)
    (pne nnk : List (List Char)) (nes nks : List String) (dp : String)
    (nf : List (String × FileInfo)) (fn : String)
    (h : ∀ e ∈ nf, e.2.hash = "") :
    ∀ e ∈ scanFileStep w ci exts kws pne nnk nes nks dp nf fn,
      e.2.hash = "" := by
  simp only [scanFileStep]
  split_ifs <;> try exact h
  refine setKey_forall (fun e => e.2.hash = "") _ _ ?_ nf h
  rfl

theorem scan_files_hash_empty (w : ScanWorld)
    (prior : List (String × FileInfo)) (rds exts kws xds : List String)
    (sim : Option ℚ) (nes nks : List String) :
    ∀ e ∈ (scan_files w prior rds exts kws xds sim nes nks).file_index,
      e.2.hash = "" := by
  intro e he
  simp only [scan_files, sortBySortedSize] at he
  have h2 := (List.mem_filter.mp he).1
  have h3 := (List.perm_insertionSort
    (fun (a b : String × FileInfo) => a.2.sorted_size ≤ b.2.sorted_size) _).mem_iff.mp h2
  refine foldl_preserve (fun nf => ∀ x ∈ nf, x.2.hash = "") _ ?_ _ [] ?_ e h3
  · intro b d hb
    by_cases hx : (xds.any fun ep => w.isUnder d.1 ep) = true
    · rw [if_pos hx]; exact hb
    · rw [if_neg hx]
      refine foldl_preserve (fun nf => ∀ x ∈ nf, x.2.hash = "") _ ?_ _ b hb
      intro b2 fn hb2
      exact scanFileStep_hash_empty w [] exts kws _ _ nes nks d.1 b2 fn hb2
  · intro x hx
    simp at hx

/-- Claim C4 (corrected, amended): `scan_files` begins with
`self.file_index = {}`, so its result does not depend on the prior index at
all — no record, and in particular no cached hash, is ever reused across
scans — and every record of the fresh index has been recomputed with an
empty `hash` field. -/
theorem c4_amended_scan_rebuilds (w : ScanWorld)
    (prior prior2 : List (String × FileInfo)) (rds exts kws xds : List String)
    (sim : Option ℚ) (nes nks : List String) (p : String) (rec : FileInfo)
    (h : alookup (scan_files w prior rds exts kws xds sim nes nks).file_index p
      = some rec) :
    scan_files w prior rds exts kws xds sim nes nks
      = scan_files w prior2 rds exts kws xds sim nes nks ∧
    rec.hash = "" := by
  constructor
  · rfl
  · exact scan_files_hash_empty w prior rds exts kws xds sim nes nks (p, rec)
      (alookup_mem _ p rec h)

/-- Witness for the amended claim C4 at the concrete scenario. -/
theorem c4_amended_scan_rebuilds_witness :
    scan_files c4World c4Prior ["r"] [] [] [] none [] []
      = scan_files c4World [] ["r"] [] [] [] none [] [] ∧
    ({ size := 100, name := "report".data, hash := "",
        sorted_size := 100 } : FileInfo).hash = "" :=
  c4_amended_scan_rebuilds c4World c4Prior [] ["r"] [] [] [] none [] []
    "r/report.txt" _ (by with_unfolding_all decide)

/-! Structure of the candidate loop and of one anchor step. -/

theorem addCandidates_decomp (t : ℚ) (fs : String → Bool) (path : String)
    (nm : List Char) :
    ∀ (cands : List (String × FileInfo)) (group seen : List String),
    ∃ d : List String,
      (addCandidates t fs path nm cands group seen).1 = group ++ d ∧
      (addCandidates t fs path nm cands group seen).2 = d.reverse ++ seen ∧
      d.Nodup ∧
      ∀ x ∈ d, x ∉ seen ∧ fs x = true ∧ x ≠ path ∧ x ∈ cands.map Prod.fst := by
  intro cands
  induction cands with
  | nil =>
    intro group seen
    exact ⟨[], by simp [addCandidates], by simp [addCandidates],
      List.nodup_nil, by simp⟩
  | cons c rest ih =>
    intro group seen
    obtain ⟨op, od⟩ := c
    by_cases hc : path ≠ op ∧ op ∉ seen ∧ fs op = true ∧
        t ≤ fuzzy_match nm od.name
    · obtain ⟨d, h1, h2, h3, h4⟩ := ih (group ++ [op]) (op :: seen)
      refine ⟨op :: d, ?_, ?_, ?_, ?_⟩
      · simp only [addCandidates]
        rw [if_pos hc, h1, List.append_assoc]
        rfl
      · simp only [addCandidates]
        rw [if_pos hc, h2, List.reverse_cons, List.append_assoc]
        rfl
      · refine List.nodup_cons.mpr ⟨?_, h3⟩
        intro hop
        exact (h4 op hop).1 (List.mem_cons_self _ _)
      · intro x hx
        rcases List.mem_cons.mp hx with hx | hx
        · rw [hx]
          refine ⟨hc.2.1, hc.2.2.1, fun he => hc.1 he.symm, ?_⟩
          simp
        · obtain ⟨hs, hf, hp, hm⟩ := h4 x hx
          refine ⟨fun hxs => hs (List.mem_cons_of_mem _ hxs), hf, hp, ?_⟩
          simp only [List.map_cons, List.mem_cons]
          exact Or.inr hm
    · obtain ⟨d, h1, h2, h3, h4⟩ := ih group seen
      refine ⟨d, ?_, ?_, h3, ?_⟩
      · simp only [addCandidates]
        rw [if_neg hc]
        exact h1
      · simp only [addCandidates]
        rw [if_neg hc]
        exact h2
      · intro x hx
        obtain ⟨hs, hf, hp, hm⟩ := h4 x hx
        refine ⟨hs, hf, hp, ?_⟩
        simp only [List.map_cons, List.mem_cons]
        exact Or.inr hm

theorem slice_map_fst_subset (l : List (String × FileInfo)) (j m : Nat) :
    ∀ x ∈ ((l.drop j).take m).map Prod.fst, x ∈ l.map Prod.fst := by
  intro x hx
  obtain ⟨e, he, rfl⟩ := List.mem_map.mp hx
  exact List.mem_map_of_mem _ (List.drop_subset _ _ (List.take_subset _ _ he))

theorem anchorStep_cases (hash_check : Bool) (threshold : ℚ)
    (index sortedFiles : List (String × FileInfo)) (sizes : List Nat)
    (fs : String → Bool) (hashFn : String → Option String)
    (st : SimState) (pd : String × FileInfo) :
    (pd.1 ∈ st.seen ∧
      anchorStep hash_check threshold index sortedFiles sizes fs hashFn st pd
        = st) ∨
    (pd.1 ∉ st.seen ∧ ∃ d : List String,
      (anchorStep hash_check threshold index sortedFiles sizes fs hashFn st
          pd).seen = d.reverse ++ st.seen ∧
      d.Nodup ∧
      (∀ x ∈ d, x ∉ st.seen ∧ fs x = true ∧ x ≠ pd.1 ∧
        x ∈ sortedFiles.map Prod.fst) ∧
      ((anchorStep hash_check threshold index sortedFiles sizes fs hashFn st
          pd).groups = st.groups ∨
       ((anchorStep hash_check threshold index sortedFiles sizes fs hashFn st
          pd).groups = st.groups ++ [pd.1 :: d] ∧
        (((pd.1 :: d).map (lookupSortedSize index)).dedup).length = 1))) := by
  by_cases hseen : pd.1 ∈ st.seen
  · exact Or.inl ⟨hseen, by simp only [anchorStep, if_pos hseen]⟩
  · right
    refine ⟨hseen, ?_⟩
    obtain ⟨d, h1, h2, h3, h4⟩ := addCandidates_decomp threshold fs pd.1
      pd.2.name
      ((sortedFiles.drop (bisect_left sizes pd.2.sorted_size)).take
        (bisect_right sizes pd.2.sorted_size -
          bisect_left sizes pd.2.sorted_size))
      [pd.1] st.seen
    refine ⟨d, ?_, h3, ?_, ?_⟩
    · simp only [anchorStep, if_neg hseen]
      split_ifs <;> exact h2
    · intro x hx
      obtain ⟨hs, hf, hp, hm⟩ := h4 x hx
      exact ⟨fun h => hs h, hf, hp, slice_map_fst_subset sortedFiles _ _ x hm⟩
    · simp only [anchorStep, if_neg hseen]
      split_ifs with hA hB hC hD
      · exact Or.inl rfl
      · refine Or.inr ⟨?_, ?_⟩
        · rw [h1]
          rfl
        · have hlen := not_ne_iff.mp hC
          rw [h1] at hlen
          exact hlen
      · exact Or.inl rfl
      · exact Or.inl rfl
      · exact Or.inl rfl

/-! Lemmas supporting claims C10 and C7. -/

theorem simLoop_vanished (hash_check : Bool) (threshold : ℚ)
    (index sortedFiles : List (String × FileInfo)) (sizes : List Nat)
    (fs : String → Bool) (hashFn : String → Option String)
    (p : String) (hp : fs p = false) :
    ∀ (rem : List (String × FileInfo)) (st : SimState),
    p ∉ st.seen → (∀ g ∈ st.groups, p ∉ g.drop 1) →
    p ∉ (simLoop hash_check threshold index sortedFiles sizes fs hashFn rem
        st).seen ∧
    ∀ g ∈ (simLoop hash_check threshold index sortedFiles sizes fs hashFn rem
        st).groups, p ∉ g.drop 1 := by
  intro rem
  induction rem with
  | nil => intro st h1 h2; exact ⟨h1, h2⟩
  | cons e rest ih =>
    intro st h1 h2
    simp only [simLoop]
    rcases anchorStep_cases hash_check threshold index sortedFiles sizes fs
        hashFn st e with ⟨_, heq⟩ | ⟨hns, d, hseq, hdnd, hd, hgr⟩
    · rw [heq]
      exact ih st h1 h2
    · apply ih
      · rw [hseq]
        intro hmem
        rcases List.mem_append.mp hmem with hm | hm
        · have := (hd p (List.mem_reverse.mp hm)).2.1
          rw [hp] at this
          exact Bool.false_ne_true this
        · exact h1 hm
      · rcases hgr with hgr | ⟨hgr, _⟩
        · rw [hgr]
          exact h2
        · rw [hgr]
          intro g hg
          rcases List.mem_append.mp hg with hm | hm
          · exact h2 g hm
          · rw [List.mem_singleton.mp hm]
            intro hpd
            have := (hd p (by simpa using hpd)).2.1
            rw [hp] at this
            exact Bool.false_ne_true this

/-- Claim C10: `calculate_similarity` consults the live filesystem
asymmetrically. A path that no longer exists on disk is never added as a
non-anchor member of any emitted group and is never marked visited (it stays
out of `seen`); but such a vanished path can still anchor a group and appear
as its first member, as the concrete scenario shows: `gone.txt` does not
exist, yet the emitted group is `["gone.txt", "here.txt"]` (its stale cached
hash lets the group pass hash verification). -/
theorem c10_vanished_path_asymmetry (hash_check : Bool) (threshold : ℚ)
    (index : List (String × FileInfo)) (fs : String → Bool)
    (hashFn : String → Option String) (cache : List (String × String))
    (p : String) (hp : fs p = false) :
    (∀ g ∈ (calculate_similarity hash_check threshold index fs hashFn
        cache).1, p ∉ g.drop 1) ∧
    p ∉ (calcSimFull hash_check threshold index fs hashFn cache).seen ∧
    (calculate_similarity true (9/10) c10Index c10fs c10hash c10cache).1
      = [["gone.txt", "here.txt"]] ∧
    c10fs "gone.txt" = false := by
  have h := simLoop_vanished hash_check threshold index (sortBySortedSize index)
    ((sortBySortedSize index).map (fun e => e.2.sorted_size)) fs hashFn p hp
    (sortBySortedSize index) { groups := [], seen := [], cache := cache }
    (by simp) (by simp)
  refine ⟨h.2, h.1, by with_unfolding_all decide, by with_unfolding_all decide⟩

/-- Witness for claim C10 at the concrete vanished-path scenario. -/
theorem c10_vanished_path_asymmetry_witness :
    "gone.txt" ∉ (["gone.txt", "here.txt"] : List String).drop 1 ∧
    "gone.txt" ∉ (calcSimFull true (9/10) c10Index c10fs c10hash
        c10cache).seen ∧
    (calculate_similarity true (9/10) c10Index c10fs c10hash c10cache).1
      = [["gone.txt", "here.txt"]] ∧
    c10fs "gone.txt" = false := by
  have h := c10_vanished_path_asymmetry true (9/10) c10Index c10fs c10hash
    c10cache "gone.txt" (by with_unfolding_all decide)
  exact ⟨h.1 ["gone.txt", "here.txt"] (by with_unfolding_all decide),
    h.2.1, h.2.2.1, h.2.2.2⟩

theorem simLoop_sizes_inv (hash_check : Bool) (threshold : ℚ)
    (index sortedFiles : List (String × FileInfo)) (sizes : List Nat)
    (fs : String → Bool) (hashFn : String → Option String) :
    ∀ (rem : List (String × FileInfo)) (st : SimState),
    (∀ g ∈ st.groups, ((g.map (lookupSortedSize index)).dedup).length = 1) →
    ∀ g ∈ (simLoop hash_check threshold index sortedFiles sizes fs hashFn rem
        st).groups, ((g.map (lookupSortedSize index)).dedup).length = 1 := by
  intro rem
  induction rem with
  | nil => intro st h; exact h
  | cons e rest ih =>
    intro st h
    simp only [simLoop]
    rcases anchorStep_cases hash_check threshold index sortedFiles sizes fs
        hashFn st e with ⟨_, heq⟩ | ⟨hns, d, hseq, hdnd, hd, hgr⟩
    · rw [heq]
      exact ih st h
    · apply ih
      rcases hgr with hgr | ⟨hgr, hlen⟩
      · rw [hgr]
        exact h
      · rw [hgr]
        intro g hg
        rcases List.mem_append.mp hg with hm | hm
        · exact h g hm
        · rw [List.mem_singleton.mp hm]
          exact hlen

theorem dedup_length_one_eq {α : Type} [DecidableEq α] {l : List α}
    (h : l.dedup.length = 1) : ∀ x ∈ l, ∀ y ∈ l, x = y := by
  obtain ⟨a, ha⟩ := List.length_eq_one.mp h
  intro x hx y hy
  have hx2 := List.mem_dedup.mpr hx
  have hy2 := List.mem_dedup.mpr hy
  rw [ha] at hx2 hy2
  rw [List.mem_singleton.mp hx2, List.mem_singleton.mp hy2]

/-- Claim C7: all members of any group emitted by `calculate_similarity` have
exactly equal `sorted_size`. The size window is zero
(`lower = si * 1 = upper = si / 1 = si`), so only exactly-equal sizes are
candidates; and the emitted (hash-verified) groups additionally pass the
explicit one-distinct-size check, which this proof draws on. -/
theorem c7_group_members_equal_size (hash_check : Bool) (threshold : ℚ)
    (index : List (String × FileInfo)) (fs : String → Bool)
    (hashFn : String → Option String) (cache : List (String × String))
    (g : List String) (p q : String)
    (hg : g ∈ (calculate_similarity hash_check threshold index fs hashFn
        cache).1)
    (hp : p ∈ g) (hq : q ∈ g) :
    lookupSortedSize index p = lookupSortedSize index q := by
  have hg2 : g ∈ (simLoop hash_check threshold index (sortBySortedSize index)
      ((sortBySortedSize index).map (fun e => e.2.sorted_size)) fs hashFn
      (sortBySortedSize index)
      { groups := [], seen := [], cache := cache }).groups := hg
  have h1 : ((g.map (lookupSortedSize index)).dedup).length = 1 :=
    simLoop_sizes_inv hash_check threshold index (sortBySortedSize index)
      ((sortBySortedSize index).map (fun e => e.2.sorted_size)) fs hashFn
      (sortBySortedSize index) { groups := [], seen := [], cache := cache }
      (by simp) g hg2
  exact dedup_length_one_eq h1 _ (List.mem_map_of_mem _ hp) _
    (List.mem_map_of_mem _ hq)

/-- Witness for claim C7 at the hash-confirmed concrete scenario. -/
theorem c7_group_members_equal_size_witness :
    lookupSortedSize c3Index "u1.txt" = lookupSortedSize c3Index "u2.txt" :=
  c7_group_members_equal_size true (9/10) c3Index (fun _ => true)
    (fun _ => none) [] ["u1.txt", "u2.txt"] "u1.txt" "u2.txt"
    (by with_unfolding_all decide) (by decide) (by decide)

/-! Lemmas supporting claim C6. -/

theorem simLoop_unique_inv (hash_check : Bool) (threshold : ℚ)
    (index sortedFiles : List (String × FileInfo)) (sizes : List Nat)
    (fs : String → Bool) (hashFn : String → Option String) :
    ∀ (rem : List (String × FileInfo)) (st : SimState),
    (rem.map Prod.fst).Nodup →
    (∀ e ∈ rem, ∀ g ∈ st.groups, g.headD "" ≠ e.1) →
    ((st.groups.map (fun g => g.drop 1)).flatten).Nodup →
    (∀ x ∈ (st.groups.map (fun g => g.drop 1)).flatten, x ∈ st.seen) →
    ((st.groups.map (fun g => g.headD "")).Nodup) →
    List.Pairwise (fun g1 g2 => g2.headD "" ∉ g1.drop 1) st.groups →
    ((((simLoop hash_check threshold index sortedFiles sizes fs hashFn rem
        st).groups.map (fun g => g.drop 1)).flatten).Nodup) ∧
    ((((simLoop hash_check threshold index sortedFiles sizes fs hashFn rem
        st).groups.map (fun g => g.headD "")).Nodup)) ∧
    List.Pairwise (fun g1 g2 => g2.headD "" ∉ g1.drop 1)
      (simLoop hash_check threshold index sortedFiles sizes fs hashFn rem
        st).groups := by
  intro rem
  induction rem with
  | nil => intro st _ _ h3 _ h5 h6; exact ⟨h3, h5, h6⟩
  | cons e rest ih =>
    intro st hnd hheads h3 h4 h5 h6
    have hndr : (rest.map Prod.fst).Nodup := by
      simp only [List.map_cons] at hnd
      exact (List.nodup_cons.mp hnd).2
    have hef : e.1 ∉ rest.map Prod.fst := by
      simp only [List.map_cons] at hnd
      exact (List.nodup_cons.mp hnd).1
    simp only [simLoop]
    rcases anchorStep_cases hash_check threshold index sortedFiles sizes fs
        hashFn st e with ⟨_, heq⟩ | ⟨hns, d, hseq, hdnd, hd, hgr⟩
    · rw [heq]
      exact ih st hndr
        (fun e2 he2 => hheads e2 (List.mem_cons_of_mem _ he2)) h3 h4 h5 h6
    · rcases hgr with hgr | ⟨hgr, _⟩
      · apply ih _ hndr
        · rw [hgr]
          exact fun e2 he2 => hheads e2 (List.mem_cons_of_mem _ he2)
        · rw [hgr]
          exact h3
        · rw [hgr, hseq]
          intro x hx
          exact List.mem_append_right _ (h4 x hx)
        · rw [hgr]
          exact h5
        · rw [hgr]
          exact h6
      · apply ih _ hndr
        · rw [hgr]
          intro e2 he2 g hg
          rcases List.mem_append.mp hg with hm | hm
          · exact hheads e2 (List.mem_cons_of_mem _ he2) g hm
          · rw [List.mem_singleton.mp hm]
            simp only [List.headD_cons]
            intro hcontra
            rw [hcontra] at hef
            exact hef (List.mem_map_of_mem _ he2)
        · rw [hgr]
          simp only [List.map_append, List.flatten_append, List.map_cons,
            List.map_nil, List.drop_one, List.tail_cons, List.flatten_cons,
            List.flatten_nil, List.append_nil]
          refine List.Nodup.append ?_ hdnd ?_
          · simpa [List.drop_one] using h3
          · intro x hx1 hx2
            have hseen := h4 x (by simpa [List.drop_one] using hx1)
            exact (hd x hx2).1 hseen
        · rw [hgr, hseq]
          simp only [List.map_append, List.flatten_append, List.map_cons,
            List.map_nil, List.drop_one, List.tail_cons, List.flatten_cons,
            List.flatten_nil, List.append_nil]
          intro x hx
          rcases List.mem_append.mp hx with hm | hm
          · exact List.mem_append_right _ (h4 x (by simpa [List.drop_one] using hm))
          · exact List.mem_append_left _ (List.mem_reverse.mpr hm)
        · rw [hgr]
          simp only [List.map_append, List.map_cons, List.map_nil,
            List.headD_cons]
          refine List.Nodup.append h5 (List.nodup_singleton _) ?_
          intro x hx1 hx2
          rw [List.mem_singleton.mp hx2] at hx1
          obtain ⟨g, hg, hgh⟩ := List.mem_map.mp hx1
          exact hheads e (List.mem_cons_self _ _) g hg hgh
        · rw [hgr]
          refine List.pairwise_append.mpr ⟨h6, List.pairwise_singleton _ _, ?_⟩
          intro g1 hg1 g2 hg2
          rw [List.mem_singleton.mp hg2]
          simp only [List.headD_cons]
          intro hcontra
          have : e.1 ∈ (st.groups.map (fun g => g.drop 1)).flatten :=
            List.mem_flatten.mpr ⟨g1.drop 1, List.mem_map_of_mem _ hg1, hcontra⟩
          exact hns (h4 e.1 this)

/-- Claim C6 counterexample: a single `calculate_similarity` call whose
result has the path `ab.txt` in two different emitted groups — it anchors the
first group (anchors are never marked visited) and, because the fuzzy matcher
is asymmetric on the dotted name `a.b.c`, it is absorbed as a member of the
second group. The index is a valid dict (no duplicate paths). -/
theorem c6_cex_path_in_two_groups :
    (calculate_similarity true (3/5) c6Index (fun _ => true)
        (fun _ => some "h") []).1
      = [["ab.txt", "ab.jpg"], ["a.b.c.txt", "ab.txt"]] ∧
    "ab.txt" ∈ [["ab.txt", "ab.jpg"], ["a.b.c.txt", "ab.txt"]].getD 0 [] ∧
    "ab.txt" ∈ [["ab.txt", "ab.jpg"], ["a.b.c.txt", "ab.txt"]].getD 1 [] ∧
    [["ab.txt", "ab.jpg"], ["a.b.c.txt", "ab.txt"]].getD 0 []
      ≠ [["ab.txt", "ab.jpg"], ["a.b.c.txt", "ab.txt"]].getD 1 [] ∧
    (c6Index.map Prod.fst).Nodup := by
  refine ⟨?_, ?_, ?_, ?_, ?_⟩ <;> with_unfolding_all decide

/-- Claim C6 (corrected, amended): in one `calculate_similarity` call, no
path is ever added as a non-anchor member of two different groups (members
are marked visited), no path anchors two different groups, and a group's
anchor never appears in an EARLIER group; but — contrary to the original
claim — an emitted group's anchor can still be absorbed into a later group,
because anchors are never marked visited (see the counterexample). -/
theorem c6_amended_membership_unique (hash_check : Bool) (threshold : ℚ)
    (index : List (String × FileInfo)) (fs : String → Bool)
    (hashFn : String → Option String) (cache : List (String × String))
    (hnd : (index.map Prod.fst).Nodup) :
    ((((calculate_similarity hash_check threshold index fs hashFn cache).1.map
        (fun g => g.drop 1)).flatten).Nodup) ∧
    ((((calculate_similarity hash_check threshold index fs hashFn cache).1.map
        (fun g => g.headD "")).Nodup)) ∧
    List.Pairwise (fun g1 g2 => g2.headD "" ∉ g1.drop 1)
      (calculate_similarity hash_check threshold index fs hashFn cache).1 := by
  have hnd2 : ((sortBySortedSize index).map Prod.fst).Nodup := by
    have hp := (List.perm_insertionSort
      (fun (a b : String × FileInfo) => a.2.sorted_size ≤ b.2.sorted_size)
      index).map Prod.fst
    exact hp.nodup_iff.mpr hnd
  have h := simLoop_unique_inv hash_check threshold index
    (sortBySortedSize index)
    ((sortBySortedSize index).map (fun e => e.2.sorted_size)) fs hashFn
    (sortBySortedSize index) { groups := [], seen := [], cache := cache }
    hnd2 (by simp) (by simp) (by simp) (by simp) (by simp)
  exact h

/-- Witness for the amended claim C6 at the concrete scenario. -/
theorem c6_amended_membership_unique_witness :
    ((((calculate_similarity true (3/5) c6Index (fun _ => true)
        (fun _ => some "h") []).1.map (fun g => g.drop 1)).flatten).Nodup) ∧
    ((((calculate_similarity true (3/5) c6Index (fun _ => true)
        (fun _ => some "h") []).1.map (fun g => g.headD "")).Nodup)) ∧
    List.Pairwise (fun g1 g2 => g2.headD "" ∉ g1.drop 1)
      (calculate_similarity true (3/5) c6Index (fun _ => true)
        (fun _ => some "h") []).1 :=
  c6_amended_membership_unique true (3/5) c6Index (fun _ => true)
    (fun _ => some "h") [] (by with_unfolding_all decide)

/-! Lemmas supporting claim C8. -/

theorem removeRetry_bounds (n : Nat) :
    (removeRetry n 3 0 0).2.1 ≤ 3 ∧
    (removeRetry n 3 0 0).2.2 = (removeRetry n 3 0 0).2.1 - 1 := by
  rcases Nat.lt_or_ge n 3 with h | h
  · interval_cases n <;> decide
  · obtain ⟨m, rfl⟩ : ∃ m, n = m + 3 := ⟨n - 3, by omega⟩
    have h0 : ¬ (m + 3 ≤ 0) := by omega
    have h1 : ¬ (m + 3 ≤ 1) := by omega
    have h2 : ¬ (m + 3 ≤ 2) := by omega
    simp only [removeRetry, if_neg h0, if_neg h1, if_neg h2]
    decide

theorem deletePath_step (spec : String → RemoveBehavior) (st : DelState)
    (q : String) :
    ∃ entry : String × Nat × Nat,
      (deletePath spec st q).attemptLog = st.attemptLog ++ [entry] ∧
      entry.2.1 ≤ 3 ∧ entry.2.2 = entry.2.1 - 1 ∧
      (((deletePath spec st q).deleted = st.deleted ∧
        (deletePath spec st q).fileIndex = st.fileIndex ∧
        (deletePath spec st q).hashCache = st.hashCache) ∨
       ((deletePath spec st q).deleted = st.deleted ++ [q] ∧
        (deletePath spec st q).fileIndex = eraseKey st.fileIndex q ∧
        (deletePath spec st q).hashCache = eraseKey st.hashCache q)) := by
  by_cases hq : q ∈ st.fs
  · rcases hspec : spec q with n | _
    · by_cases hr : (removeRetry n 3 0 0).1 = true
      · refine ⟨(q, (removeRetry n 3 0 0).2.1, (removeRetry n 3 0 0).2.2),
          ?_, (removeRetry_bounds n).1, (removeRetry_bounds n).2,
          Or.inr ⟨?_, ?_, ?_⟩⟩ <;>
          (simp only [deletePath, if_pos hq, hspec]; rw [if_pos hr])
      · refine ⟨(q, (removeRetry n 3 0 0).2.1, (removeRetry n 3 0 0).2.2),
          ?_, (removeRetry_bounds n).1, (removeRetry_bounds n).2,
          Or.inl ⟨?_, ?_, ?_⟩⟩ <;>
          (simp only [deletePath, if_pos hq, hspec]; rw [if_neg hr])
    · refine ⟨(q, 1, 0), ?_, by simp, rfl, Or.inl ⟨?_, ?_, ?_⟩⟩ <;>
        simp only [deletePath, if_pos hq, hspec]
  · refine ⟨(q, 1, 0), ?_, by simp, rfl, Or.inl ⟨?_, ?_, ?_⟩⟩ <;>
      simp only [deletePath, if_neg hq]

theorem foldlDelete_inv (spec : String → RemoveBehavior)
    (targets : List String) (fi0 : List (String × FileInfo)) :
    ∀ (ps : List String) (st : DelState),
    (∀ x ∈ ps, x ∈ targets) → DelInv targets fi0 st →
    DelInv targets fi0 (ps.foldl (deletePath spec) st) := by
  intro ps
  induction ps with
  | nil => intro st _ h; exact h
  | cons q rest ih =>
    intro st hsub hinv
    simp only [List.foldl_cons]
    apply ih _ (fun x hx => hsub x (List.mem_cons_of_mem _ hx))
    obtain ⟨entry, hlog, hb1, hb2, hcase⟩ := deletePath_step spec st q
    obtain ⟨i1, i2, i3⟩ := hinv
    refine ⟨?_, ?_, ?_⟩
    · rw [hlog]
      intro en hen
      rcases List.mem_append.mp hen with hm | hm
      · exact i1 en hm
      · rw [List.mem_singleton.mp hm]
        exact ⟨hb1, hb2⟩
    · rcases hcase with ⟨hd, hf, hh⟩ | ⟨hd, hf, hh⟩
      · rw [hd, hf, hh]
        exact i2
      · rw [hd, hf, hh]
        intro p hp
        rcases List.mem_append.mp hp with hm | hm
        · obtain ⟨a1, a2, a3⟩ := i2 p hm
          exact ⟨alookup_eraseKey_none q p _ a1,
            alookup_eraseKey_none q p _ a2, a3⟩
        · rw [List.mem_singleton.mp hm]
          exact ⟨alookup_eraseKey_self q _, alookup_eraseKey_self q _,
            hsub q (List.mem_cons_self _ _)⟩
    · rcases hcase with ⟨hd, hf, _⟩ | ⟨hd, hf, _⟩
      · rw [hd, hf]
        exact i3
      · rw [hd, hf]
        intro p hp
        have hne : p ≠ q := by
          intro he
          apply hp
          rw [he]
          simp
        have hpd : p ∉ st.deleted := fun hc => hp (List.mem_append_left _ hc)
        rw [alookup_eraseKey_ne q p hne]
        exact i3 p hpd

theorem enumFrom_foldl_ge_one (spec : String → RemoveBehavior) :
    ∀ (g : List String) (n : Nat) (st : DelState), 1 ≤ n →
    (List.enumFrom n g).foldl
      (fun s ip => if ip.1 ∈ ([0] : List Nat) then s else deletePath spec s ip.2)
      st = g.foldl (deletePath spec) st := by
  intro g
  induction g with
  | nil => intro n st _; rfl
  | cons x rest ih =>
    intro n st hn
    simp only [List.enumFrom, List.foldl_cons]
    have hmem : n ∉ ([0] : List Nat) := by
      simp only [List.mem_singleton]
      omega
    rw [if_neg hmem]
    exact ih (n + 1) _ (by omega)

theorem processGroup_auto (spec : String → RemoveBehavior) (g : List String)
    (st : DelState) :
    processGroup spec [0] g st = (g.drop 1).foldl (deletePath spec) st := by
  cases g with
  | nil => rfl
  | cons x rest =>
    simp only [processGroup, List.enum, List.enumFrom, List.foldl_cons]
    rw [if_pos (by simp : (0 : Nat) ∈ ([0] : List Nat))]
    simpa using enumFrom_foldl_ge_one spec rest 1 st (by omega)

theorem delLoop_auto (spec : String → RemoveBehavior) :
    ∀ (dups : List (String × List String)) (inputs : List String)
      (st : DelState),
    delLoop spec false dups inputs st false
      = (dups.foldl (fun s g => if 1 < g.2.length
          then (g.2.drop 1).foldl (deletePath spec) s else s) st,
         false, false) := by
  intro dups
  induction dups with
  | nil => intro inputs st; rfl
  | cons g rest ih =>
    intro inputs st
    obtain ⟨gid, group⟩ := g
    have hstep : delLoop spec false ((gid, group) :: rest) inputs st false
        = if 1 < group.length
          then delLoop spec false rest inputs
            (processGroup spec [0] group st) false
          else delLoop spec false rest inputs st false := rfl
    rw [hstep]
    by_cases hl : 1 < group.length
    · rw [if_pos hl, ih]
      simp only [List.foldl_cons]
      rw [if_pos hl, processGroup_auto]
    · rw [if_neg hl, ih]
      simp only [List.foldl_cons]
      rw [if_neg hl]

theorem calculate_hash_preserve_none (hashFn : String → Option String)
    (cache : List (String × String)) (p q : String) (hq : q ≠ p)
    (h : alookup cache q = none) :
    alookup (calculate_hash hashFn cache p).2 q = none := by
  rcases hc : alookup cache p with _ | v
  · rcases hf : hashFn p with _ | w
    · simp only [calculate_hash, hc, hf]
      exact h
    · simp only [calculate_hash, hc, hf]
      rw [alookup_setKey_ne p w q hq]
      exact h
  · simp only [calculate_hash, hc]
    exact h

theorem groupHashCheck_preserve_none (hashFn : String → Option String)
    (q : String) :
    ∀ (paths : List String) (cache : List (String × String))
      (base : Option String),
    q ∉ paths → alookup cache q = none →
    alookup (groupHashCheck hashFn paths cache base).2 q = none := by
  intro paths
  induction paths with
  | nil => intro cache base _ h; exact h
  | cons p rest ih =>
    intro cache base hnq h
    have hqp : q ≠ p := fun he => hnq (by rw [he]; exact List.mem_cons_self _ _)
    have h2 := calculate_hash_preserve_none hashFn cache p q hqp h
    have hnr : q ∉ rest := fun hc => hnq (List.mem_cons_of_mem _ hc)
    rcases base with _ | b
    · simp only [groupHashCheck]
      exact ih _ _ hnr h2
    · simp only [groupHashCheck]
      by_cases hne : (calculate_hash hashFn cache p).1 ≠ b
      · rw [if_pos hne]
        exact h2
      · rw [if_neg hne]
        exact ih _ _ hnr h2

theorem anchorStep_preserve_none (hash_check : Bool) (threshold : ℚ)
    (index sortedFiles : List (String × FileInfo)) (sizes : List Nat)
    (fs : String → Bool) (hashFn : String → Option String)
    (st : SimState) (pd : String × FileInfo) (q : String)
    (hq : q ∉ sortedFiles.map Prod.fst)
    (hpd : pd.1 ∈ sortedFiles.map Prod.fst)
    (h : alookup st.cache q = none) :
    alookup (anchorStep hash_check threshold index sortedFiles sizes fs hashFn
      st pd).cache q = none := by
  simp only [anchorStep]
  by_cases hseen : pd.1 ∈ st.seen
  · rw [if_pos hseen]
    exact h
  · rw [if_neg hseen]
    obtain ⟨d, h1, h2, h3, h4⟩ := addCandidates_decomp threshold fs pd.1
      pd.2.name
      ((sortedFiles.drop (bisect_left sizes pd.2.sorted_size)).take
        (bisect_right sizes pd.2.sorted_size -
          bisect_left sizes pd.2.sorted_size))
      [pd.1] st.seen
    have hnot : q ∉ (addCandidates threshold fs pd.1 pd.2.name
        ((sortedFiles.drop (bisect_left sizes pd.2.sorted_size)).take
          (bisect_right sizes pd.2.sorted_size -
            bisect_left sizes pd.2.sorted_size)) [pd.1] st.seen).1 := by
      rw [h1]
      intro hc
      rcases List.mem_append.mp hc with hm | hm
      · rw [List.mem_singleton.mp hm] at hq
        exact hq hpd
      · exact hq (slice_map_fst_subset sortedFiles _ _ q (h4 q hm).2.2.2)
    split_ifs with hA hB hC hD
    · exact h
    · exact groupHashCheck_preserve_none hashFn q _ st.cache none hnot h
    · exact groupHashCheck_preserve_none hashFn q _ st.cache none hnot h
    · exact h
    · exact h

theorem simLoop_preserve_none (hash_check : Bool) (threshold : ℚ)
    (index sortedFiles : List (String × FileInfo)) (sizes : List Nat)
    (fs : String → Bool) (hashFn : String → Option String) (q : String)
    (hq : q ∉ sortedFiles.map Prod.fst) :
    ∀ (rem : List (String × FileInfo)) (st : SimState),
    (∀ e ∈ rem, e.1 ∈ sortedFiles.map Prod.fst) →
    alookup st.cache q = none →
    alookup (simLoop hash_check threshold index sortedFiles sizes fs hashFn
      rem st).cache q = none := by
  intro rem
  induction rem with
  | nil => intro st _ h; exact h
  | cons e rest ih =>
    intro st hmem h
    simp only [simLoop]
    exact ih _ (fun x hx => hmem x (List.mem_cons_of_mem _ hx))
      (anchorStep_preserve_none hash_check threshold index sortedFiles sizes
        fs hashFn st e q hq (hmem e (List.mem_cons_self _ _)) h)

theorem calculate_similarity_preserve_none (hash_check : Bool)
    (threshold : ℚ) (index : List (String × FileInfo)) (fs : String → Bool)
    (hashFn : String → Option String) (cache : List (String × String))
    (q : String) (hq : q ∉ index.map Prod.fst)
    (h : alookup cache q = none) :
    alookup (calculate_similarity hash_check threshold index fs hashFn
      cache).2 q = none := by
  have hperm := (List.perm_insertionSort
    (fun (a b : String × FileInfo) => a.2.sorted_size ≤ b.2.sorted_size)
    index).map Prod.fst
  have hq2 : q ∉ (sortBySortedSize index).map Prod.fst :=
    fun hc => hq (hperm.mem_iff.mp hc)
  exact simLoop_preserve_none hash_check threshold index
    (sortBySortedSize index)
    ((sortBySortedSize index).map (fun e => e.2.sorted_size)) fs hashFn q hq2
    (sortBySortedSize index) { groups := [], seen := [], cache := cache }
    (fun e he => List.mem_map_of_mem _ he) h

theorem foldl_preserve_mem {β γ : Type} (P : β → Prop) (f : β → γ → β) :
    ∀ (l : List γ), (∀ b x, x ∈ l → P b → P (f b x)) →
    ∀ b, P b → P (l.foldl f b) := by
  intro l
  induction l with
  | nil => intro _ b hb; exact hb
  | cons x xs ih =>
    intro hf b hb
    exact ih (fun b2 y hy hb2 => hf b2 y (List.mem_cons_of_mem _ hy) hb2)
      (f b x) (hf b x (List.mem_cons_self _ _) hb)

/-- Claim C8: in non-interactive `delete_duplicates`, every removal loop
makes at most 3 attempts with one sleep between consecutive attempts; every
path not in the keep-set has exactly one outcome — deleted (it is in the
returned list, and purged from the Index and the HashCache, including after
the final regrouping) or failed/skipped (its Index entry is untouched while
processing continues with the other paths); and only non-first members of
groups with more than one member are ever deleted. -/
theorem c8_deletion_outcomes (hash_check : Bool) (threshold : ℚ)
    (hashFn : String → Option String) (spec : String → RemoveBehavior)
    (duplicates : List (String × List String)) (inputs : List String)
    (fileIndex : List (String × FileInfo))
    (hashCache : List (String × String))
    (dupIndex : List (String × List String)) (fs : List String)
    (p : String) :
    (∀ en ∈ (delete_duplicates hash_check threshold hashFn spec duplicates
        false inputs fileIndex hashCache dupIndex fs).attemptLog,
      en.2.1 ≤ 3 ∧ en.2.2 = en.2.1 - 1) ∧
    (p ∈ (delete_duplicates hash_check threshold hashFn spec duplicates
        false inputs fileIndex hashCache dupIndex fs).deleted →
      alookup (delete_duplicates hash_check threshold hashFn spec duplicates
        false inputs fileIndex hashCache dupIndex fs).fileIndex p = none ∧
      alookup (delete_duplicates hash_check threshold hashFn spec duplicates
        false inputs fileIndex hashCache dupIndex fs).hashCache p = none ∧
      p ∈ autoDeleteTargets duplicates) ∧
    (p ∉ (delete_duplicates hash_check threshold hashFn spec duplicates
        false inputs fileIndex hashCache dupIndex fs).deleted →
      alookup (delete_duplicates hash_check threshold hashFn spec duplicates
        false inputs fileIndex hashCache dupIndex fs).fileIndex p
        = alookup fileIndex p) := by
  have hinv : DelInv (autoDeleteTargets duplicates) fileIndex
      (duplicates.foldl (fun s g => if 1 < g.2.length
        then (g.2.drop 1).foldl (deletePath spec) s else s)
        { fileIndex := fileIndex, hashCache := hashCache, fs := fs,
          deleted := [], persistedHashCache := none, attemptLog := [] }) := by
    apply foldl_preserve_mem (DelInv (autoDeleteTargets duplicates) fileIndex)
      _ duplicates
    · intro b g hg hb
      by_cases hl : 1 < g.2.length
      · rw [if_pos hl]
        apply foldlDelete_inv
        · intro x hx
          refine List.mem_flatten.mpr ⟨_, List.mem_map_of_mem
            (fun g2 => if 1 < g2.2.length then g2.2.drop 1 else []) hg, ?_⟩
          show x ∈ if 1 < g.2.length then g.2.drop 1 else []
          rw [if_pos hl]
          exact hx
        · exact hb
      · rw [if_neg hl]
        exact hb
    · exact ⟨by simp, by simp, fun q _ => rfl⟩
  have hdd : delete_duplicates hash_check threshold hashFn spec duplicates
      false inputs fileIndex hashCache dupIndex fs
      = (let st := duplicates.foldl (fun s g => if 1 < g.2.length
            then (g.2.drop 1).foldl (deletePath spec) s else s)
            { fileIndex := fileIndex, hashCache := hashCache, fs := fs,
              deleted := [], persistedHashCache := none, attemptLog := [] }
         let cs := calculate_similarity hash_check threshold st.fileIndex
            (fun x => decide (x ∈ st.fs)) hashFn st.hashCache
         { deleted := st.deleted, fileIndex := st.fileIndex,
           hashCache := cs.2, fsAfter := st.fs,
           persistedFileCache := some st.fileIndex,
           persistedHashCache := some st.hashCache,
           persistedDupCache := some dupIndex,
           newDuplicates := some cs.1,
           attemptLog := st.attemptLog, stopFlag := false }) := by
    simp only [delete_duplicates]
    rw [delLoop_auto]
    rfl
  obtain ⟨i1, i2, i3⟩ := hinv
  rw [hdd]
  refine ⟨i1, ?_, ?_⟩
  · intro hp
    refine ⟨(i2 p hp).1, ?_, (i2 p hp).2.2⟩
    apply calculate_similarity_preserve_none
    · exact (alookup_eq_none _ _).mp (i2 p hp).1
    · exact (i2 p hp).2.1
  · intro hp
    exact i3 p hp

/-- Witness for claim C8 at the concrete two-group scenario: removing
`x.txt` always raises `PermissionError` (it fails after 3 attempts and stays
in the index with its entry untouched) while `y.txt` succeeds on the second
attempt and is purged everywhere; the attempt log records (3 attempts,
2 sleeps) for the failure. -/
theorem c8_deletion_outcomes_witness :
    alookup c8Result.fileIndex "x.txt" = alookup c8Index "x.txt" ∧
    alookup c8Result.fileIndex "y.txt" = none ∧
    alookup c8Result.hashCache "y.txt" = none ∧
    "y.txt" ∈ autoDeleteTargets c8Dups ∧
    (("x.txt", 3, 2) : String × Nat × Nat).2.1 ≤ 3 ∧
    (("x.txt", 3, 2) : String × Nat × Nat).2.2
      = (("x.txt", 3, 2) : String × Nat × Nat).2.1 - 1 := by
  have hx := c8_deletion_outcomes false (9/10) (fun _ => some "h") c8Spec
    c8Dups [] c8Index [] [] ["k.txt", "x.txt", "k2.txt", "y.txt"] "x.txt"
  have hy := c8_deletion_outcomes false (9/10) (fun _ => some "h") c8Spec
    c8Dups [] c8Index [] [] ["k.txt", "x.txt", "k2.txt", "y.txt"] "y.txt"
  have hdy := hy.2.1 (by with_unfolding_all decide)
  refine ⟨hx.2.2 (by with_unfolding_all decide), hdy.1, hdy.2.1, hdy.2.2,
    hx.1 ("x.txt", 3, 2) (by with_unfolding_all decide) |>.1,
    hx.1 ("x.txt", 3, 2) (by with_unfolding_all decide) |>.2⟩
